import Mathlib

/-!
Verification of the multi-agent mesh orchestrator (`ai-dial-mas-mesh`).

The definitions below are a shallow embedding of the Python source:

* `task/agents/base_agent.py` — the agent control loop: streaming response
  reconstruction (`BaseAgent.handle_request`, lines 71–96), tool-execution
  fan-out (lines 98–129), registry construction (`__init__`), dispatch
  (`_process_tool_call`) and sub-state accumulation
  (`_gather_tool_history_to_state`).
* `task/tools/deployment/base_agent_tool.py` — the sub-agent invocation
  protocol: `_clean_attachment_for_api`, `_prepare_messages` (history
  reconstruction) and the stage-mirroring loop of `_execute`.

Python machine-level conventions used throughout the embedding:
dictionaries are insertion-ordered association lists (assignment to an
existing key replaces the value in place, otherwise appends at the end);
`Option` encodes `None`-ability; Python truthiness of strings, lists and
dictionaries is made explicit; dynamic failures (`KeyError`,
`AttributeError`, `TypeError`) are encoded as `Except` error values.
-/

set_option autoImplicit false

namespace Mesh

/-! ## Streaming Response Reconstructor
Embeds the chunk-consumption loop of `BaseAgent.handle_request`
(`src/task/agents/base_agent.py`, lines 71–96). -/
/-- The `function` payload of a streamed tool-call delta
(`tool_call_delta.function`): both the name and the argument fragment are
nullable in the wire format. -/
structure FuncDelta where
  name : Option String
  arguments : Option String
deriving DecidableEq, Repr

/-- One streamed tool-call delta (`tool_call_delta`): an `index`, an optional
`id` (present on deltas that open a request, absent or empty on
continuations) and an optional `function` payload. -/
structure ToolCallDelta where
  index : Nat
  id : Option String
  function : Option FuncDelta
deriving DecidableEq, Repr

/-- Python truthiness of an optional string: `None` and `""` are falsy. -/
def strTruthy : Option String → Bool
  | none => false
  | some s => !s.isEmpty

/-- One stream chunk's delta (`chunk.choices[0].delta`): an optional content
fragment and a list of tool-call deltas (`delta.tool_calls`, where `None`
is identified with the empty list since the loop skips both). -/
structure StreamDelta where
  content : Option String
  toolCalls : List ToolCallDelta
deriving DecidableEq, Repr

/-- Failures of the reconstruction loop. `malformedStream i` is the
`KeyError` raised by `tool_call_index_map[tool_call_delta.index]` when a
continuation delta arrives at an index that was never opened (the spec's
`MalformedStreamError`); the other two are the `AttributeError`/`TypeError`
raised by `tool_call.function.arguments += argument_chunk` when the stored
opener has no `function` payload or a `None` `arguments` field. -/
inductive RecError where
  | malformedStream : Nat → RecError
  | openerNoFunction : Nat → RecError
  | openerNoArguments : Nat → RecError
deriving DecidableEq, Repr

/-- The `tool_call_index_map` Python dict: an insertion-ordered association
list from stream index to the stored (and in-place mutated) delta. -/
abbrev TCMap := List (Nat × ToolCallDelta)

/-- Dictionary lookup `tool_call_index_map[i]` (first entry with the key). -/
def TCMap.get : TCMap → Nat → Option ToolCallDelta
  | [], _ => none
  | (j, d) :: m, i => if j = i then some d else TCMap.get m i

/-- Dictionary assignment `tool_call_index_map[i] = d`: replaces the value
in place when the key exists, otherwise appends at the end (Python dicts
preserve insertion order). -/
def TCMap.set : TCMap → Nat → ToolCallDelta → TCMap
  | [], i, d => [(i, d)]
  | (j, e) :: m, i, d => if j = i then (i, d) :: m else (j, e) :: TCMap.set m i d

/-- The keys of the map, in insertion order. -/
def TCMap.keys (m : TCMap) : List Nat := m.map Prod.fst

/-- One step of the tool-call part of the loop body: an id-bearing delta is
stored at its index (overwriting any open request there); a delta without an
id looks up the open request at its index (`KeyError` if absent) and, when
it carries a `function` payload, appends `arguments or ''` to the stored
request's argument accumulator. -/
def processToolCallDelta (m : TCMap) (d : ToolCallDelta) : Except RecError TCMap :=
  if strTruthy d.id then
    .ok (m.set d.index d)
  else
    match m.get d.index with
    | none => .error (.malformedStream d.index)
    | some tc =>
      match d.function with
      | none => .ok m
      | some f =>
        match tc.function with
        | none => .error (.openerNoFunction d.index)
        | some tf =>
          match tf.arguments with
          | none => .error (.openerNoArguments d.index)
          | some a =>
            .ok (m.set d.index
              { tc with function := some { tf with arguments := some (a ++ f.arguments.getD "") } })

/-- Sequential processing of one chunk's `delta.tool_calls` list. -/
def processToolCallDeltas (m : TCMap) : List ToolCallDelta → Except RecError TCMap
  | [] => .ok m
  | d :: ds =>
    match processToolCallDelta m d with
    | .ok m2 => processToolCallDeltas m2 ds
    | .error e => .error e

/-- Reconstruction state: the accumulated content string and the index map. -/
structure RecState where
  content : String
  map : TCMap
deriving DecidableEq, Repr

/-- Loop body for one chunk: a truthy content fragment is appended to the
accumulator (and forwarded to the choice, which the embedding does not
track), then the tool-call deltas are processed in order. -/
def processStreamDelta (s : RecState) (c : StreamDelta) : Except RecError RecState :=
  let content :=
    match c.content with
    | some t => if t.isEmpty then s.content else s.content ++ t
    | none => s.content
  match processToolCallDeltas s.map c.toolCalls with
  | .ok m => .ok ⟨content, m⟩
  | .error e => .error e

/-- The whole reconstruction loop of `handle_request` (lines 71–90): fold
the chunk stream from the empty accumulator and the empty index map. The
assistant message's tool calls are the final map's values in dict order. -/
def reconstructStream : RecState → List StreamDelta → Except RecError RecState
  | s, [] => .ok s
  | s, c :: cs =>
    match processStreamDelta s c with
    | .ok s2 => reconstructStream s2 cs
    | .error e => .error e

/-- Initial reconstruction state (`content = ''`, empty index map). -/
def recInit : RecState := ⟨"", []⟩

/-! ### Event-level view of the stream
For the proofs the chunk stream is flattened into its atomic events, in the
exact order the loop observes them (content first, then each tool-call
delta of the chunk). -/
/-- An atomic stream event: a content fragment or a tool-call delta. -/
inductive StreamEvent where
  | contentFrag : String → StreamEvent
  | toolCall : ToolCallDelta → StreamEvent
deriving DecidableEq, Repr

/-- The events of a single chunk, in processing order. -/
def deltaEvents (c : StreamDelta) : List StreamEvent :=
  match c.content with
  | some t => .contentFrag t :: c.toolCalls.map .toolCall
  | none => c.toolCalls.map .toolCall

/-- The flattened event sequence of a chunk stream. -/
def streamEvents (cs : List StreamDelta) : List StreamEvent :=
  cs.flatMap deltaEvents

/-- Processing a single atomic event. -/
def processEvent (s : RecState) : StreamEvent → Except RecError RecState
  | .contentFrag t => .ok ⟨if t.isEmpty then s.content else s.content ++ t, s.map⟩
  | .toolCall d =>
    match processToolCallDelta s.map d with
    | .ok m => .ok ⟨s.content, m⟩
    | .error e => .error e

/-- Processing an event list sequentially. -/
def processEvents (s : RecState) : List StreamEvent → Except RecError RecState
  | [] => .ok s
  | e :: es =>
    match processEvent s e with
    | .ok s2 => processEvents s2 es
    | .error err => .error err

/-! ### Spec-side stream notions
Pure descriptions of the event sequence used to state the claims: the
concatenated content, the argument fragments delivered for an index, the
opener discipline, and well-shapedness of openers. -/
/-- Concatenation of a list of strings, in order. -/
def strJoin (l : List String) : String := l.foldl (· ++ ·) ""

/-- The content fragment delivered by an event, if any. -/
def eventContent : StreamEvent → Option String
  | .contentFrag t => some t
  | .toolCall _ => none

/-- The concatenation, in stream order, of all content fragments. -/
def contentConcat (es : List StreamEvent) : String :=
  strJoin (es.filterMap eventContent)

/-- The argument fragment delivered by a tool-call delta: the `arguments`
field of its `function` payload, or the empty string when absent. -/
def deltaFrag (d : ToolCallDelta) : String :=
  match d.function with
  | none => ""
  | some f => f.arguments.getD ""

/-- The argument fragment an event delivers for index `i`, if any. -/
def eventFragFor (i : Nat) : StreamEvent → Option String
  | .toolCall d => if d.index = i then some (deltaFrag d) else none
  | .contentFrag _ => none

/-- The concatenation, in stream order, of the argument fragments delivered
for index `i` (id-bearing openers included). -/
def fragsFor (i : Nat) (es : List StreamEvent) : String :=
  strJoin (es.filterMap (eventFragFor i))

/-- The indices of the id-bearing (opener) deltas, in stream order. -/
def openersOf (es : List StreamEvent) : List Nat :=
  es.filterMap fun e =>
    match e with
    | .toolCall d => if strTruthy d.id then some d.index else none
    | .contentFrag _ => none

/-- Scan deciding whether every continuation delta's index was previously
opened, starting from the set `opened` of already-open indices. -/
def contOpened (opened : List Nat) : List StreamEvent → Bool
  | [] => true
  | .contentFrag _ :: es => contOpened opened es
  | .toolCall d :: es =>
    if strTruthy d.id then contOpened (d.index :: opened) es
    else opened.contains d.index && contOpened opened es

/-- A stored request is well-shaped when its `function` payload exists and
carries an `arguments` string (the shape the model API produces for
id-bearing deltas). -/
def entryWellShaped (d : ToolCallDelta) : Bool :=
  match d.function with
  | some f => f.arguments.isSome
  | none => false

/-- All id-bearing deltas of the event list are well-shaped. -/
def openersWellShaped (es : List StreamEvent) : Bool :=
  es.all fun e =>
    match e with
    | .toolCall d => if strTruthy d.id then entryWellShaped d else true
    | .contentFrag _ => true

/-- All stored requests of the index map are well-shaped. -/
def TCMap.wellShaped (m : TCMap) : Bool :=
  m.all fun p => entryWellShaped p.2

/-- The accumulated argument text of the request at index `i`, if open. -/
def RecState.argsView (s : RecState) (i : Nat) : Option String :=
  (s.map.get i).bind fun d => d.function.bind fun f => f.arguments

/-! ### Insertion (first-opening) order of the reconstructed requests -/
/-- The order in which the loop first opens indices, starting from the
already-open key list `ks`: an id-bearing delta at a fresh index appends it;
everything else leaves the key order unchanged. -/
def firstOpenAux (ks : List Nat) : List StreamEvent → List Nat
  | [] => ks
  | .contentFrag _ :: es => firstOpenAux ks es
  | .toolCall d :: es =>
    if strTruthy d.id && !ks.contains d.index then firstOpenAux (ks ++ [d.index]) es
    else firstOpenAux ks es

/-- The first-opening order of a whole event list. -/
def firstOpenOrder (es : List StreamEvent) : List Nat := firstOpenAux [] es

/-! ### Replacement semantics: only the last opener at an index counts -/
/-- The fragments delivered by continuation deltas at index `i`, in order. -/
def contFragsAt (i : Nat) (es : List StreamEvent) : String :=
  strJoin (es.filterMap fun e =>
    match e with
    | .toolCall d =>
      if strTruthy d.id then none
      else if d.index = i then some (deltaFrag d) else none
    | .contentFrag _ => none)

/-- No id-bearing delta at index `i` occurs in the list. -/
def noOpenerAt (i : Nat) (es : List StreamEvent) : Bool :=
  es.all fun e =>
    match e with
    | .toolCall d => !(strTruthy d.id && d.index == i)
    | .contentFrag _ => true

/-- C2 counterexample stream: index 0 is opened twice (both deltas carry an
id); there is no continuation delta at all, so the claim's hypothesis —
every continuation delta's index was previously opened — holds vacuously. -/
def c2badStream : List StreamDelta :=
  [⟨none, [⟨0, some "a", some ⟨some "f", some "x"⟩⟩,
           ⟨0, some "b", some ⟨some "f", some "y"⟩⟩]⟩]

/-- C7 counterexample stream: index 1 is opened before index 0. -/
def c7stream : List StreamDelta :=
  [⟨none, [⟨1, some "b", some ⟨some "g", some ""⟩⟩,
           ⟨0, some "a", some ⟨some "f", some ""⟩⟩]⟩]

/-- C10 witness stream: index 0 is opened with fragment `"x"`, continued
with `"y"`, re-opened with fragment `"z"`, continued with `"w"`. -/
def c10stream : List StreamDelta :=
  [⟨none, [⟨0, some "a", some ⟨some "f", some "x"⟩⟩]⟩,
   ⟨none, [⟨0, none, some ⟨none, some "y"⟩⟩,
           ⟨0, some "b", some ⟨some "g", some "z"⟩⟩,
           ⟨0, none, some ⟨none, some "w"⟩⟩]⟩]

/-! ## Conversation data model
Embeds the slices of the aidial message model that the code under
verification reads or writes. Fields the embedded functions never touch
(for example `tool_calls` on outer messages) are omitted. -/
/-- Message roles (`aidial_sdk.chat_completion.Role`). -/
inductive Role where
  | system
  | user
  | assistant
  | tool
deriving DecidableEq, Repr

/-- The wire value of a role (`Role.X.value`). -/
def Role.value : Role → String
  | .system => "system"
  | .user => "user"
  | .assistant => "assistant"
  | .tool => "tool"

/-- Modelled from the spec: `task/utils/constants.py` is not part of the
provided sources; the spec's state-blob wire shape fixes the key of the
tool-call history to `tool_call_history`. -/
def TOOL_CALL_HISTORY_KEY : String := "tool_call_history"

/-- An attachment as read by the cleaners: `url`, `reference_url`, `type`,
`title`, each nullable. -/
structure Attachment where
  url : Option String
  reference_url : Option String
  type : Option String
  title : Option String
deriving DecidableEq, Repr

/-- The cleaned attachment dict produced by `_clean_attachment_for_api`:
only `url`, `type`, `title` can be present. -/
structure CleanAttachment where
  url : Option String
  type : Option String
  title : Option String
deriving DecidableEq, Repr

/-- `_clean_attachment_for_api` (base_agent_tool.py lines 16–30): `url`
falls back to `reference_url` (Python truthiness: empty strings count as
missing); `type` and `title` are kept only when truthy. -/
def cleanAttachmentForApi (att : Attachment) : CleanAttachment :=
  { url := if strTruthy att.url then att.url
           else if strTruthy att.reference_url then att.reference_url else none
  , type := if strTruthy att.type then att.type else none
  , title := if strTruthy att.title then att.title else none }

/-- A message dict stored inside a persisted tool-call history. Only the
fields the embedded code reads via `.get` are modelled; a missing key is
`none`. (The embedding does not distinguish a key holding `None` from an
absent key.) -/
structure HMsg where
  role : Option String
  content : Option String
  tool_call_id : Option String
  name : Option String
deriving DecidableEq, Repr

/-- An entry of a persisted history list: a message dict, or a stray
non-dict value (e.g. a string key produced by extending a list with a
dict), which `isinstance(history_msg, dict)` filters out. -/
inductive HVal where
  | msg : HMsg → HVal
  | str : String → HVal
deriving DecidableEq, Repr

/-- A value inside the opaque state blob: a history list or a nested
dict (insertion-ordered association list). -/
inductive SVal where
  | hist : List HVal → SVal
  | sub : List (String × SVal) → SVal

/-- Python truthiness of a state value: empty lists and dicts are falsy. -/
def SVal.truthy : SVal → Bool
  | .hist l => !l.isEmpty
  | .sub s => !s.isEmpty

/-- Dictionary lookup (first entry with the key), `d.get(k)`. -/
def alistGet {α : Type} : List (String × α) → String → Option α
  | [], _ => none
  | (j, v) :: m, k => if j = k then some v else alistGet m k

/-- Dictionary assignment `d[k] = v`: replace in place or append. -/
def alistSet {α : Type} : List (String × α) → String → α → List (String × α)
  | [], k, v => [(k, v)]
  | (j, w) :: m, k, v => if j = k then (k, v) :: m else (j, w) :: alistSet m k v

/-- `custom_content` of an outer message: nullable attachment list and
nullable state blob (a dict of `SVal`s at the top level). -/
structure CustomContent where
  attachments : Option (List Attachment)
  state : Option SVal

/-- An outer conversation message as read by `_prepare_messages`: role,
nullable content, nullable custom content. -/
structure Msg where
  role : Role
  content : Option String
  customContent : Option CustomContent

/-- The `custom_content` part of a serialized outbound message. -/
structure CCDict where
  attachments : Option (List CleanAttachment)
  state : Option SVal

/-- A serialized outbound message dict (`exclude_none`: an absent field is
`none`; the embedding does not distinguish a key holding `None` from an
absent key). -/
structure MsgDict where
  role : String
  content : Option String
  tool_call_id : Option String
  name : Option String
  custom_content : Option CCDict

/-! ## Conversation State Propagator: `BaseAgentTool._prepare_messages`
(base_agent_tool.py lines 151–293). The source extracts `prompt` and
`propagate_history` from the JSON tool-call arguments; the embedding takes
them already extracted. -/
/-- The attachment-list cleaning applied to user messages (and, inline with
identical logic, as the first pass over the assistant copy): clean each
attachment and keep it only when it has a url. -/
def cleanAttachmentsList (atts : List Attachment) : List CleanAttachment :=
  atts.filterMap fun att =>
    let c := cleanAttachmentForApi att
    if c.url.isSome then some c else none

/-- The `custom_content` added to a reconstructed user message: present
only when the source message has a truthy attachment list that cleans to a
non-empty list. -/
def userCCDict (cc? : Option CustomContent) : Option CCDict :=
  match cc? with
  | some cc =>
    match cc.attachments with
    | some atts =>
      if atts.isEmpty then none
      else
        let cleaned := cleanAttachmentsList atts
        if cleaned.isEmpty then none
        else some { attachments := some cleaned, state := none }
    | none => none
  | none => none

/-- The reconstructed preceding user message (lines 179–197): role `user`,
`content or ""`, cleaned attachments. -/
def userMsgDict (u : Msg) : MsgDict :=
  { role := Role.user.value
  , content := some ((u.content).getD "")
  , tool_call_id := none
  , name := none
  , custom_content := userCCDict u.customContent }

/-- One replayed tool Turn (lines 202–207): only role, content (default
`""`) and `tool_call_id` survive. -/
def toolReplayDict (m : HMsg) : MsgDict :=
  { role := Role.tool.value
  , content := some (m.content.getD "")
  , tool_call_id := m.tool_call_id
  , name := none
  , custom_content := none }

/-- The replayed nested history (lines 200–207): iterate the stored value
(iterating a dict yields its keys, which are not dicts), keep dict entries
whose role is `tool`, reduced by `toolReplayDict`. -/
def toolReplays : SVal → List MsgDict
  | .hist l =>
    l.filterMap fun hv =>
      match hv with
      | .msg m => if m.role = some Role.tool.value then some (toolReplayDict m) else none
      | .str _ => none
  | .sub _ => []

/-- `Attachment(**att_dict)` over a cleaned dict (second cleaning pass). -/
def attachmentOfClean (c : CleanAttachment) : Attachment :=
  { url := c.url, reference_url := none, type := c.type, title := c.title }

/-- The second cleaning pass over the serialized assistant attachments
(lines 236–261): re-parse each dict as an attachment, clean again, keep
only with a url. -/
def assistantCleanSecond (l : List CleanAttachment) : List CleanAttachment :=
  l.filterMap fun c =>
    let c2 := cleanAttachmentForApi (attachmentOfClean c)
    if c2.url.isSome then some c2 else none

/-- The attachments of the serialized assistant copy: `None` stays absent;
a falsy (empty) list skips the inline cleaning but survives serialization
and the second pass; a truthy list is cleaned inline (lines 215–232) and
then cleaned again after serialization. -/
def assistantAttachments : Option (List Attachment) → Option (List CleanAttachment)
  | none => none
  | some atts =>
    if atts.isEmpty then some []
    else some (assistantCleanSecond (cleanAttachmentsList atts))

/-- The assistant Turn serialized with its state replaced by the
capability-namespaced sub-state and its attachments cleaned
(lines 209–263). -/
def assistantMsgDict (m : Msg) (cc : CustomContent) (agentState : SVal) : MsgDict :=
  { role := Role.assistant.value
  , content := m.content
  , tool_call_id := none
  , name := none
  , custom_content := some
      { attachments := assistantAttachments cc.attachments
      , state := some agentState } }

/-- The contribution of one outer message to the reconstructed history
(the body of the `while` loop, lines 163–263): an assistant message whose
truthy dict state contains a dict entry for this agent with a tool-call
history contributes the preceding user Turn (when the previous message is
a user Turn), the replayed tool Turns, and the assistant Turn with
namespaced state; everything else contributes nothing. -/
def prepareBlock (agentName : String) (prev : Option Msg) (m : Msg) : List MsgDict :=
  match m.role, m.customContent with
  | Role.assistant, some cc =>
    (match cc.state with
     | some st =>
       if st.truthy then
         match st with
         | .sub entries =>
           (match alistGet entries agentName with
            | some (SVal.sub sub) =>
              (match alistGet sub TOOL_CALL_HISTORY_KEY with
               | some tch =>
                 (match prev with
                  | some u => if u.role = Role.user then [userMsgDict u] else []
                  | none => []) ++
                 toolReplays tch ++
                 [assistantMsgDict m cc (SVal.sub sub)]
               | none => [])
            | some (SVal.hist _) => []
            | none => [])
         | .hist _ => []
       else []
     | none => [])
  | _, _ => []

/-- The history-collection loop (`while i < len(messages)`), carrying the
previous message for the `messages[i - 1]` check. -/
def prepareHistory (agentName : String) (prev : Option Msg) : List Msg → List MsgDict
  | [] => []
  | m :: rest => prepareBlock agentName prev m ++ prepareHistory agentName (some m) rest

/-- The new-prompt user Turn appended last (lines 267–291), carrying the
cleaned attachments of the outer conversation's last message when that is
a user Turn. -/
def finalUserMsgDict (prompt : String) (messages : List Msg) : MsgDict :=
  { role := Role.user.value
  , content := some prompt
  , tool_call_id := none
  , name := none
  , custom_content :=
      match messages.getLast? with
      | some last => if last.role = Role.user then userCCDict last.customContent else none
      | none => none }

/-- `BaseAgentTool._prepare_messages`: the reconstructed outbound message
list — the collected history when `propagate_history` is true, followed by
the new prompt as a fresh user Turn. -/
def prepareMessages (agentName : String) (prompt : String) (propagateHistory : Bool)
    (messages : List Msg) : List MsgDict :=
  (if propagateHistory then prepareHistory agentName none messages else []) ++
  [finalUserMsgDict prompt messages]

/-- The verbatim serialization of a stored history message, for comparison
with what the replay actually emits. -/
def hmsgToDict (m : HMsg) : MsgDict :=
  { role := m.role.getD ""
  , content := m.content
  , tool_call_id := m.tool_call_id
  , name := m.name
  , custom_content := none }

/-! ## BaseAgent: construction, registry validation, fan-out, sub-state -/
/-- The Python exceptions the agent code can raise dynamically. -/
inductive PyError where
  | keyError : String → PyError
  | valueError : String → PyError
  | attributeError : String → PyError
deriving DecidableEq, Repr

/-- `str(e)` as used in the error Turn content: `str(KeyError(k))` is the
repr of the key (quoted); the other kinds carry their message text. -/
def PyError.str : PyError → String
  | .keyError k => "\x27" ++ k ++ "\x27"
  | .valueError m => m
  | .attributeError m => m

/-- A registered capability. Only the registry key (`tool.name`) matters to
the embedded control-loop code; schema and stage policy stay with the
capability execution itself. -/
structure Tool where
  name : String
deriving DecidableEq, Repr

/-- The agent instance as built by `BaseAgent.__init__`: the raw tool list,
the `_tools_dict` registry, and the conversation state blob. -/
structure Agent where
  endpoint : String
  systemPrompt : String
  tools : List (Option Tool)
  toolsDict : List (String × Tool)
  state : List (String × SVal)

/-- Building `_tools_dict` (line 26–29): a dict comprehension over the
tools; evaluating `tool.name` on a `None` entry raises `AttributeError`. -/
def buildToolsDict : List (String × Tool) → List (Option Tool) →
    Except PyError (List (String × Tool))
  | acc, [] => .ok acc
  | acc, some t :: rest => buildToolsDict (alistSet acc t.name t) rest
  | _, none :: _ => .error (.attributeError "NoneType object has no attribute name")

/-- `BaseAgent.__init__` (lines 17–32): no registry validation happens at
construction; the state starts as the singleton history dict. -/
def baseAgentInit (endpoint systemPrompt : String) (tools : List (Option Tool)) :
    Except PyError Agent :=
  match buildToolsDict [] tools with
  | .ok td => .ok ⟨endpoint, systemPrompt, tools, td, [(TOOL_CALL_HISTORY_KEY, SVal.hist [])]⟩
  | .error e => .error e

/-- `[tool for tool in self.tools if tool is not None]` (line 47). -/
def validTools (tools : List (Option Tool)) : List Tool :=
  tools.filterMap id

/-- The validation at the top of `handle_request` (lines 41–49): an empty
tool list, or one whose non-`None` filtering is empty, raises `ValueError`
at request time. -/
def handleRequestValidate (a : Agent) : Except PyError Unit :=
  if a.tools.isEmpty then .error (.valueError "No tools available for the agent")
  else if (validTools a.tools).isEmpty then .error (.valueError "All tools are None or invalid")
  else .ok ()

/-- The `function` payload of a reconstructed tool call. -/
structure ToolCallFunction where
  name : String
  arguments : String
deriving DecidableEq, Repr

/-- A reconstructed tool call attached to the assistant Turn. -/
structure ToolCall where
  id : String
  function : ToolCallFunction
deriving DecidableEq, Repr

/-- `BaseAgent._process_tool_call` as seen by the fan-out: the registry
lookup `self._tools_dict[tool_name]` (line 183) raises `KeyError` for an
unregistered capability; everything after resolution (stage reporting,
argument parsing, execution, sub-state gathering) is the capability
execution itself, represented by the outcome oracle `exec`. -/
def processToolCall (toolsDict : List (String × Tool))
    (exec : ToolCall → Except PyError MsgDict) (tc : ToolCall) : Except PyError MsgDict :=
  match alistGet toolsDict tc.function.name with
  | some _ => exec tc
  | none => .error (.keyError tc.function.name)

/-- The error Turn built for a gathered exception (lines 117–124). -/
def errorToolMsg (tc : ToolCall) (e : PyError) : MsgDict :=
  { role := Role.tool.value
  , content := some ("Error: " ++ e.str)
  , tool_call_id := some tc.id
  , name := some tc.function.name
  , custom_content := none }

/-- The tool-execution fan-out (lines 98–129): one task per tool call,
collected by `asyncio.gather(..., return_exceptions=True)` — one outcome
per task, in task order, no exception propagating — then the conversion
loop turns each exception into an error Turn for its own request. -/
def fanOutToolCalls (toolsDict : List (String × Tool))
    (exec : ToolCall → Except PyError MsgDict) (toolCalls : List ToolCall) : List MsgDict :=
  let toolResults := toolCalls.map (processToolCall toolsDict exec)
  (toolCalls.zip toolResults).map fun p =>
    match p.2 with
    | .ok m => m
    | .error e => errorToolMsg p.1 e

/-- Python `target.extend(addition)`: a list extends (a list appends its
elements, a dict appends its keys); a dict has no `extend` and raises
`AttributeError`. -/
def extendSVal (target addition : SVal) : Except PyError SVal :=
  match target with
  | .hist l =>
    match addition with
    | .hist h => .ok (.hist (l ++ h))
    | .sub s => .ok (.hist (l ++ s.map (fun kv => HVal.str kv.1)))
  | .sub _ => .error (.attributeError "dict object has no attribute extend")

/-- `BaseAgent._gather_tool_history_to_state` (lines 223–231): when the
tool result carries a truthy nested state whose `tool_call_history` entry
is truthy, either create the namespaced entry `{tool_call_history: h}` or,
when a truthy entry for the tool already exists, call `.extend` on the
stored value — which is the dict the else-branch created. -/
def gatherToolHistoryToState (state : List (String × SVal)) (toolName : String)
    (toolMessage : MsgDict) : Except PyError (List (String × SVal)) :=
  match toolMessage.custom_content with
  | none => .ok state
  | some cc =>
    match cc.state with
    | none => .ok state
    | some st =>
      if st.truthy then
        match st with
        | .sub stEntries =>
          (match alistGet stEntries TOOL_CALL_HISTORY_KEY with
           | some hist =>
             if hist.truthy then
               match alistGet state toolName with
               | some existing =>
                 if existing.truthy then
                   match extendSVal existing hist with
                   | .ok v => .ok (alistSet state toolName v)
                   | .error e => .error e
                 else .ok (alistSet state toolName (.sub [(TOOL_CALL_HISTORY_KEY, hist)]))
               | none => .ok (alistSet state toolName (.sub [(TOOL_CALL_HISTORY_KEY, hist)]))
             else .ok state
           | none => .ok state)
        | .hist _ => .error (.attributeError "list object has no attribute get")
      else .ok state

/-! ## Stage mirroring in `BaseAgentTool._execute` (lines 101–140) -/
/-- One entry of the `stages` array inside the callee's streamed state:
index, name, content snapshot (default `""`), status, attachments
(non-dict array entries, which the source skips, are not modelled). -/
structure StageData where
  index : Option Nat
  name : Option String
  content : String
  status : Option String
  attachments : List Attachment
deriving DecidableEq, Repr

/-- A caller-side mirrored stage. Modelled from the spec: the `Stage` sink
(`task/utils/stage.py` is not part of the provided sources) has
open/append/add-attachment and an idempotent safe close; `openCount`
counts `open()` calls so "opened exactly once" is expressible. -/
structure MirrorStage where
  name : Option String
  content : String
  attachments : List Attachment
  openCount : Nat
  closed : Bool
deriving DecidableEq, Repr

/-- `choice.create_stage(stage_name)` yields a fresh, unopened stage. -/
def MirrorStage.create (name : Option String) : MirrorStage :=
  { name := name, content := "", attachments := [], openCount := 0, closed := false }

/-- `stage.open()`. -/
def MirrorStage.openStage (s : MirrorStage) : MirrorStage :=
  { s with openCount := s.openCount + 1 }

/-- `stage.append_content(t)`. -/
def MirrorStage.appendContent (s : MirrorStage) (t : String) : MirrorStage :=
  { s with content := s.content ++ t }

/-- `stage.add_attachment(a)`. -/
def MirrorStage.addAttachment (s : MirrorStage) (a : Attachment) : MirrorStage :=
  { s with attachments := s.attachments ++ [a] }

/-- `StageProcessor.close_stage_safely(stage)`: idempotent close. -/
def MirrorStage.closeSafely (s : MirrorStage) : MirrorStage :=
  { s with closed := true }

/-- The `stages_map` Python dict keyed by emitted stage index. -/
def nalistGet {α : Type} : List (Nat × α) → Nat → Option α
  | [], _ => none
  | (j, v) :: m, i => if j = i then some v else nalistGet m i

/-- Dictionary assignment for the stages map. -/
def nalistSet {α : Type} : List (Nat × α) → Nat → α → List (Nat × α)
  | [], i, v => [(i, v)]
  | (j, w) :: m, i, v => if j = i then (i, v) :: m else (j, w) :: nalistSet m i v

/-- The body of the stage-propagation loop for one `stage_data` entry
(lines 107–136): get or create-and-open the mirror keyed by the emitted
index; append the full content snapshot whenever it is truthy and differs
from the mirrored content; re-add the attachments; close safely when the
source status is `completed`. -/
def mirrorStageDatum (m : List (Nat × MirrorStage)) (sd : StageData) :
    List (Nat × MirrorStage) :=
  match sd.index with
  | none => m
  | some i =>
    let stage0 :=
      match nalistGet m i with
      | some st => st
      | none => MirrorStage.openStage (MirrorStage.create sd.name)
    let stage1 :=
      if sd.content.isEmpty then stage0
      else if sd.content = stage0.content then stage0
      else stage0.appendContent sd.content
    let stage2 := sd.attachments.foldl MirrorStage.addAttachment stage1
    let stage3 := if sd.status = some "completed" then stage2.closeSafely else stage2
    nalistSet m i stage3

/-- The whole mirroring pass of `_execute` (lines 74–140, restricted to the
stages propagation): each chunk optionally carries a `stages` array inside
its state; after the stream ends every mirrored stage is force-closed
(lines 138–140). -/
def mirrorStages (chunks : List (Option (List StageData))) : List (Nat × MirrorStage) :=
  let final := chunks.foldl (fun m c? =>
    match c? with
    | some sds => sds.foldl mirrorStageDatum m
    | none => m) []
  final.map fun p => (p.1, p.2.closeSafely)

/-! ## Claims about the fan-out, registry and sub-state -/
/-- The per-call result the fan-out emits: the capability's success result,
or the error Turn describing that call's own failure. -/
def fanOutSingle (toolsDict : List (String × Tool)) (exec : ToolCall → Except PyError MsgDict)
    (tc : ToolCall) : MsgDict :=
  match processToolCall toolsDict exec tc with
  | .ok m => m
  | .error e => errorToolMsg tc e

/-- C5 counterexample data: a registry holding only `calc`, an oracle that
would succeed, and a single request for the unregistered `websearch`. -/
def c5registry : List (String × Tool) := [("calc", ⟨"calc"⟩)]

/-- A successful capability result for the C5 scenario's oracle. -/
def c5okMsg : MsgDict :=
  { role := Role.tool.value, content := some "ok", tool_call_id := some "id1"
  , name := some "calc", custom_content := none }

/-- The C5 request for an unregistered capability. -/
def c5call : ToolCall := ⟨"id9", ⟨"websearch", "arguments"⟩⟩

/-- C9 witness agent: a single registered calculator capability. -/
def c9agent : Agent :=
  { endpoint := "endpoint", systemPrompt := "prompt"
  , tools := [some ⟨"calc"⟩], toolsDict := [("calc", ⟨"calc"⟩)]
  , state := [(TOOL_CALL_HISTORY_KEY, SVal.hist [])] }

/-- C6 failing input: a tool result whose nested state carries a one-entry
tool-call history. -/
def c6toolMsg : MsgDict :=
  { role := Role.tool.value
  , content := some "result"
  , tool_call_id := some "id1"
  , name := some "agent_b"
  , custom_content := some
      { attachments := none
      , state := some (.sub [(TOOL_CALL_HISTORY_KEY,
          .hist [.msg ⟨some "assistant", some "x", none, none⟩])]) } }

/-- The agent state after the first successful gather of `c6toolMsg`. -/
def c6state1 : List (String × SVal) :=
  [(TOOL_CALL_HISTORY_KEY, SVal.hist []),
   ("agent_b", .sub [(TOOL_CALL_HISTORY_KEY,
      .hist [.msg ⟨some "assistant", some "x", none, none⟩])])]

/-- C8 failing input: the callee reports stage 0 with the cumulative
content snapshots `"ab"` and then `"abc"` across two chunks. -/
def c8chunks : List (Option (List StageData)) :=
  [some [⟨some 0, some "s", "ab", none, []⟩],
   some [⟨some 0, some "s", "abc", none, []⟩]]

/-- C1 data: a nested tool Turn that carries a `name` field. -/
def c1histMsg : HMsg := ⟨some "tool", some "42", some "id1", some "calc"⟩

/-- C1 data: the delegated capability's sub-state. -/
def c1sub : List (String × SVal) :=
  [(TOOL_CALL_HISTORY_KEY, SVal.hist [HVal.msg c1histMsg])]

/-- C1 data: the custom content of the prior assistant Turn. -/
def c1cc : CustomContent :=
  { attachments := none, state := some (SVal.sub [("agent_b", SVal.sub c1sub)]) }

/-- C1 data: the preceding user Turn. -/
def c1userMsg : Msg := ⟨Role.user, some "question", none⟩

/-- C1 data: the prior assistant Turn holding the namespaced sub-state. -/
def c1assistantMsg : Msg := ⟨Role.assistant, some "answer", some c1cc⟩

/-- C1 data: the outer history handed to the delegating call. -/
def c1msgs : List Msg := [c1userMsg, c1assistantMsg]

theorem processEvents_append (l1 l2 : List StreamEvent) (s : RecState) :
    processEvents s (l1 ++ l2) =
      match processEvents s l1 with
      | .ok m => processEvents m l2
      | .error e => .error e := by
  induction l1 generalizing s with
  | nil => simp [processEvents]
  | cons e es ih =>
    simp only [List.cons_append, processEvents]
    cases processEvent s e with
    | ok s2 => exact ih s2
    | error err => rfl

theorem processEvents_toolCalls (ds : List ToolCallDelta) (s : RecState) :
    processEvents s (ds.map .toolCall) =
      match processToolCallDeltas s.map ds with
      | .ok m => .ok ⟨s.content, m⟩
      | .error e => .error e := by
  induction ds generalizing s with
  | nil => simp [processEvents, processToolCallDeltas]
  | cons d ds ih =>
    simp only [List.map_cons, processEvents, processEvent, processToolCallDeltas]
    cases processToolCallDelta s.map d with
    | ok m2 => exact ih ⟨s.content, m2⟩
    | error e => rfl

theorem processEvents_deltaEvents (c : StreamDelta) (s : RecState) :
    processEvents s (deltaEvents c) = processStreamDelta s c := by
  cases c with
  | mk content toolCalls =>
    cases content with
    | none =>
      simp only [deltaEvents, processStreamDelta]
      exact processEvents_toolCalls toolCalls s
    | some t =>
      simp only [deltaEvents, processEvents, processEvent, processStreamDelta]
      rw [processEvents_toolCalls]

/-- The chunk-level loop agrees with the flattened event-level fold. -/
theorem reconstructStream_eq_processEvents (cs : List StreamDelta) (s : RecState) :
    reconstructStream s cs = processEvents s (streamEvents cs) := by
  induction cs generalizing s with
  | nil => rfl
  | cons c cs ih =>
    simp only [reconstructStream, streamEvents, List.flatMap_cons]
    rw [processEvents_append, processEvents_deltaEvents]
    cases processStreamDelta s c with
    | ok s2 =>
      simpa [streamEvents] using ih s2
    | error e => rfl

theorem foldl_append_str (l : List String) (a : String) :
    l.foldl (· ++ ·) a = a ++ l.foldl (· ++ ·) "" := by
  induction l generalizing a with
  | nil => simp
  | cons x l ih =>
    simp only [List.foldl_cons]
    rw [ih (a ++ x), ih (("" : String) ++ x), String.empty_append, String.append_assoc]

theorem strJoin_nil : strJoin [] = "" := rfl

theorem strJoin_cons (x : String) (l : List String) : strJoin (x :: l) = x ++ strJoin l := by
  simp only [strJoin, List.foldl_cons, String.empty_append]
  exact foldl_append_str l x

/-! ### Index-map (Python dict) lemmas -/
theorem TCMap.get_set_self (m : TCMap) (i : Nat) (d : ToolCallDelta) :
    (m.set i d).get i = some d := by
  induction m with
  | nil => simp [TCMap.set, TCMap.get]
  | cons p m ih =>
    obtain ⟨j, e⟩ := p
    by_cases h : j = i <;> simp [TCMap.set, TCMap.get, h, ih]

theorem TCMap.get_set_ne (m : TCMap) (i j : Nat) (d : ToolCallDelta) (h : j ≠ i) :
    (m.set i d).get j = m.get j := by
  induction m with
  | nil =>
    have : ¬(i = j) := fun hq => h hq.symm
    simp [TCMap.set, TCMap.get, this]
  | cons p m ih =>
    obtain ⟨k, e⟩ := p
    by_cases hk : k = i
    · subst hk
      have : ¬(k = j) := fun hq => h hq.symm
      simp [TCMap.set, TCMap.get, this]
    · simp only [TCMap.set, if_neg hk]
      by_cases hkj : k = j <;> simp [TCMap.get, hkj, ih]

theorem TCMap.keys_set_of_mem (m : TCMap) (i : Nat) (d : ToolCallDelta)
    (h : i ∈ m.keys) : (m.set i d).keys = m.keys := by
  induction m with
  | nil => simp [TCMap.keys] at h
  | cons p m ih =>
    obtain ⟨j, e⟩ := p
    by_cases hj : j = i
    · subst hj
      simp [TCMap.set, TCMap.keys]
    · simp only [TCMap.keys, List.map_cons, List.mem_cons] at h
      rcases h with h | h
      · exact absurd h.symm hj
      · simp only [TCMap.set, if_neg hj, TCMap.keys, List.map_cons, List.cons.injEq, true_and]
        exact ih h

theorem TCMap.keys_set_of_not_mem (m : TCMap) (i : Nat) (d : ToolCallDelta)
    (h : i ∉ m.keys) : (m.set i d).keys = m.keys ++ [i] := by
  induction m with
  | nil => simp [TCMap.set, TCMap.keys]
  | cons p m ih =>
    obtain ⟨j, e⟩ := p
    simp only [TCMap.keys, List.map_cons, List.mem_cons, not_or] at h
    obtain ⟨h1, h2⟩ := h
    have hj : ¬(j = i) := fun hq => h1 hq.symm
    simp only [TCMap.set, if_neg hj, TCMap.keys, List.map_cons, List.cons_append,
      List.cons.injEq, true_and]
    exact ih h2

theorem TCMap.get_eq_none_of_not_mem (m : TCMap) (i : Nat) (h : i ∉ m.keys) :
    m.get i = none := by
  induction m with
  | nil => rfl
  | cons p m ih =>
    obtain ⟨j, e⟩ := p
    simp only [TCMap.keys, List.map_cons, List.mem_cons, not_or] at h
    have hj : ¬(j = i) := fun hq => h.1 hq.symm
    simp [TCMap.get, hj, ih h.2]

theorem TCMap.mem_of_get (m : TCMap) (i : Nat) (d : ToolCallDelta)
    (h : m.get i = some d) : (i, d) ∈ m := by
  induction m with
  | nil => simp [TCMap.get] at h
  | cons p m ih =>
    obtain ⟨j, e⟩ := p
    by_cases hj : j = i
    · subst hj
      have he : e = d := by simpa [TCMap.get] using h
      subst he
      exact List.mem_cons_self _ _
    · simp only [TCMap.get, if_neg hj] at h
      exact List.mem_cons_of_mem _ (ih h)

theorem TCMap.mem_keys_of_get (m : TCMap) (i : Nat) (d : ToolCallDelta)
    (h : m.get i = some d) : i ∈ m.keys := by
  have hm := TCMap.mem_of_get m i d h
  exact List.mem_map_of_mem Prod.fst hm

theorem TCMap.wellShaped_get (m : TCMap) (i : Nat) (d : ToolCallDelta)
    (hm : m.wellShaped = true) (h : m.get i = some d) : entryWellShaped d = true :=
  List.all_eq_true.mp hm (i, d) (TCMap.mem_of_get m i d h)

theorem TCMap.wellShaped_set (m : TCMap) (i : Nat) (d : ToolCallDelta)
    (hm : m.wellShaped = true) (hd : entryWellShaped d = true) :
    (m.set i d).wellShaped = true := by
  induction m with
  | nil => simp [TCMap.set, TCMap.wellShaped, hd]
  | cons p m ih =>
    obtain ⟨j, e⟩ := p
    simp only [TCMap.wellShaped, List.all_cons, Bool.and_eq_true] at hm
    by_cases hj : j = i
    · subst hj
      simp [TCMap.set, TCMap.wellShaped, hd, hm.2]
    · simp only [TCMap.set, if_neg hj, TCMap.wellShaped, List.all_cons, Bool.and_eq_true]
      exact ⟨hm.1, ih hm.2⟩

theorem TCMap.get_of_mem_keys (m : TCMap) (i : Nat) (h : i ∈ m.keys) :
    ∃ d, m.get i = some d := by
  induction m with
  | nil => simp [TCMap.keys] at h
  | cons p m ih =>
    obtain ⟨j, e⟩ := p
    by_cases hj : j = i
    · exact ⟨e, by simp [TCMap.get, hj]⟩
    · simp only [TCMap.keys, List.map_cons, List.mem_cons] at h
      rcases h with h | h
      · exact absurd h.symm hj
      · obtain ⟨d, hd⟩ := ih h
        exact ⟨d, by simp [TCMap.get, hj, hd]⟩

/-! ### Unfolding lemmas for the spec-side notions -/
theorem contentConcat_nil : contentConcat [] = "" := rfl

theorem contentConcat_cons_content (t : String) (es : List StreamEvent) :
    contentConcat (.contentFrag t :: es) = t ++ contentConcat es := by
  simp only [contentConcat, List.filterMap_cons, eventContent]
  exact strJoin_cons t _

theorem contentConcat_cons_tc (d : ToolCallDelta) (es : List StreamEvent) :
    contentConcat (.toolCall d :: es) = contentConcat es := by
  simp [contentConcat, List.filterMap_cons, eventContent]

theorem fragsFor_nil (i : Nat) : fragsFor i [] = "" := rfl

theorem fragsFor_cons_content (i : Nat) (t : String) (es : List StreamEvent) :
    fragsFor i (.contentFrag t :: es) = fragsFor i es := by
  simp [fragsFor, List.filterMap_cons, eventFragFor]

theorem fragsFor_cons_tc_eq (i : Nat) (d : ToolCallDelta) (es : List StreamEvent)
    (h : d.index = i) : fragsFor i (.toolCall d :: es) = deltaFrag d ++ fragsFor i es := by
  simp only [fragsFor, List.filterMap_cons, eventFragFor, if_pos h]
  exact strJoin_cons _ _

theorem fragsFor_cons_tc_ne (i : Nat) (d : ToolCallDelta) (es : List StreamEvent)
    (h : ¬(d.index = i)) : fragsFor i (.toolCall d :: es) = fragsFor i es := by
  simp [fragsFor, List.filterMap_cons, eventFragFor, if_neg h]

theorem openersOf_cons_content (t : String) (es : List StreamEvent) :
    openersOf (.contentFrag t :: es) = openersOf es := by
  simp [openersOf, List.filterMap_cons]

theorem openersOf_cons_opener (d : ToolCallDelta) (es : List StreamEvent)
    (h : strTruthy d.id = true) :
    openersOf (.toolCall d :: es) = d.index :: openersOf es := by
  simp [openersOf, List.filterMap_cons, h]

theorem openersOf_cons_cont (d : ToolCallDelta) (es : List StreamEvent)
    (h : strTruthy d.id = false) :
    openersOf (.toolCall d :: es) = openersOf es := by
  simp [openersOf, List.filterMap_cons, h]

theorem contains_congr (o1 o2 : List Nat) (h : ∀ j, j ∈ o1 ↔ j ∈ o2) (i : Nat) :
    o1.contains i = o2.contains i := by
  by_cases hm : i ∈ o1
  · have h2 : i ∈ o2 := (h i).mp hm
    simp [hm, h2]
  · have h2 : i ∉ o2 := fun hx => hm ((h i).mpr hx)
    simp [hm, h2]

theorem contOpened_congr (es : List StreamEvent) :
    ∀ o1 o2 : List Nat, (∀ j, j ∈ o1 ↔ j ∈ o2) →
    contOpened o1 es = contOpened o2 es := by
  induction es with
  | nil => intro o1 o2 _; rfl
  | cons e es ih =>
    intro o1 o2 h
    cases e with
    | contentFrag t => exact ih o1 o2 h
    | toolCall d =>
      by_cases hid : strTruthy d.id = true
      · simp only [contOpened, hid, if_pos]
        refine ih _ _ ?_
        intro j
        simp only [List.mem_cons]
        exact or_congr Iff.rfl (h j)
      · simp only [contOpened, if_neg hid]
        rw [contains_congr o1 o2 h, ih o1 o2 h]

theorem entryWellShaped_elim (d : ToolCallDelta) (h : entryWellShaped d = true) :
    ∃ f a, d.function = some f ∧ f.arguments = some a := by
  cases hdf : d.function with
  | none => simp [entryWellShaped, hdf] at h
  | some f =>
    cases hfa : f.arguments with
    | none => simp [entryWellShaped, hdf, hfa] at h
    | some a => exact ⟨f, a, rfl, hfa⟩

/-! ### Master invariant of the reconstruction loop
If every continuation delta's index had previously been opened (relative to
the already-open indices), all openers are well-shaped and open mutually
distinct fresh indices, then the loop succeeds and each open request's
accumulated argument text extends by exactly the fragments delivered for
its index, in stream order; the content accumulator extends by the
concatenated content fragments. -/
theorem processEvents_master (es : List StreamEvent) :
    ∀ s : RecState, s.map.wellShaped = true →
    contOpened s.map.keys es = true →
    openersWellShaped es = true →
    (openersOf es).Nodup →
    (∀ i ∈ openersOf es, i ∉ s.map.keys) →
    ∃ s2 : RecState, processEvents s es = .ok s2 ∧
      s2.map.wellShaped = true ∧
      s2.content = s.content ++ contentConcat es ∧
      ∀ i : Nat, s2.argsView i =
        match s.argsView i with
        | some a => some (a ++ fragsFor i es)
        | none => if i ∈ openersOf es then some (fragsFor i es) else none := by
  induction es with
  | nil =>
    intro s hws _ _ _ _
    refine ⟨s, rfl, hws, by rw [contentConcat_nil, String.append_empty], ?_⟩
    intro i
    cases hv : s.argsView i with
    | some a => simp [fragsFor_nil, String.append_empty]
    | none => simp [openersOf]
  | cons e es ih =>
    intro s hws hop hshape hnd hfresh
    cases e with
    | contentFrag t =>
      have hop2 : contOpened s.map.keys es = true := hop
      have hshape2 : openersWellShaped es = true := by
        simpa [openersWellShaped] using hshape
      have hnd2 : (openersOf es).Nodup := by rwa [openersOf_cons_content] at hnd
      have hfresh2 : ∀ i ∈ openersOf es, i ∉ s.map.keys := by
        intro i hi; exact hfresh i (by rwa [openersOf_cons_content])
      set s1 : RecState := ⟨if t.isEmpty then s.content else s.content ++ t, s.map⟩ with hs1
      obtain ⟨s2, hrun, hws2, hcont, hargs⟩ := ih s1 hws hop2 hshape2 hnd2 hfresh2
      refine ⟨s2, ?_, hws2, ?_, ?_⟩
      · simpa [processEvents, processEvent, hs1] using hrun
      · rw [hcont, contentConcat_cons_content]
        by_cases ht : t.isEmpty
        · have : t = "" := by simpa [String.isEmpty_iff] using ht
          simp [hs1, ht, this]
        · simp [hs1, ht, String.append_assoc]
      · intro i
        rw [hargs i, openersOf_cons_content, fragsFor_cons_content]
        rfl
    | toolCall d =>
      by_cases hid : strTruthy d.id = true
      · -- opener delta: stored at its (fresh) index
        have hsh : entryWellShaped d = true := by
          have := (List.all_eq_true.mp hshape) (.toolCall d) (List.mem_cons_self _ _)
          simpa [hid] using this
        obtain ⟨f, a, hf, ha⟩ := entryWellShaped_elim d hsh
        have hmemop : d.index ∈ openersOf (.toolCall d :: es) := by
          rw [openersOf_cons_opener d es hid]; exact List.mem_cons_self _ _
        have hfreshd : d.index ∉ s.map.keys := hfresh d.index hmemop
        set s1 : RecState := ⟨s.content, s.map.set d.index d⟩ with hs1
        have hkeys1 : s1.map.keys = s.map.keys ++ [d.index] :=
          TCMap.keys_set_of_not_mem s.map d.index d hfreshd
        have hws1 : s1.map.wellShaped = true := TCMap.wellShaped_set _ _ _ hws hsh
        have hop1 : contOpened s1.map.keys es = true := by
          have hstep : contOpened (d.index :: s.map.keys) es = true := by
            simpa [contOpened, hid] using hop
          rw [contOpened_congr es s1.map.keys (d.index :: s.map.keys) ?_]
          · exact hstep
          · intro j
            rw [hkeys1]
            simp [List.mem_append, List.mem_cons, or_comm]
        have hndall := hnd
        rw [openersOf_cons_opener d es hid] at hndall
        have hnd2 : (openersOf es).Nodup := hndall.of_cons
        have hdnotes : d.index ∉ openersOf es := by
          have := List.nodup_cons.mp hndall
          exact this.1
        have hshape2 : openersWellShaped es = true := by
          have := hshape
          simp only [openersWellShaped, List.all_cons, Bool.and_eq_true] at this
          exact this.2
        have hfresh2 : ∀ i ∈ openersOf es, i ∉ s1.map.keys := by
          intro i hi
          rw [hkeys1]
          intro hmem
          have hi2 : i ∈ openersOf (.toolCall d :: es) := by
            rw [openersOf_cons_opener d es hid]
            exact List.mem_cons_of_mem _ hi
          rcases List.mem_append.mp hmem with hmem | hmem
          · exact hfresh i hi2 hmem
          · have : i = d.index := by simpa using hmem
            exact hdnotes (this ▸ hi)
        obtain ⟨s2, hrun, hws2, hcont, hargs⟩ := ih s1 hws1 hop1 hshape2 hnd2 hfresh2
        refine ⟨s2, ?_, hws2, ?_, ?_⟩
        · simpa [processEvents, processEvent, processToolCallDelta, hid, hs1] using hrun
        · rw [hcont, contentConcat_cons_tc]
        · intro i
          by_cases hii : i = d.index
          · have hv1 : s1.argsView i = some a := by
              rw [hii]
              simp [RecState.argsView, hs1, TCMap.get_set_self, hf, ha]
            have hv0 : s.argsView i = none := by
              rw [hii]
              simp [RecState.argsView, TCMap.get_eq_none_of_not_mem s.map d.index hfreshd]
            rw [hargs i, hv1, hv0]
            have hfr : fragsFor i (.toolCall d :: es) = a ++ fragsFor i es := by
              rw [fragsFor_cons_tc_eq i d es hii.symm]
              simp [deltaFrag, hf, ha]
            have hmemop2 : i ∈ openersOf (.toolCall d :: es) := by
              rw [hii]; exact hmemop
            simp [hmemop2, hfr]
          · have hv1 : s1.argsView i = s.argsView i := by
              simp [RecState.argsView, hs1, TCMap.get_set_ne s.map d.index i d hii]
            rw [hargs i, hv1]
            have hfr : fragsFor i (.toolCall d :: es) = fragsFor i es :=
              fragsFor_cons_tc_ne i d es (fun hq => hii hq.symm)
            have hmem : (i ∈ openersOf (.toolCall d :: es)) ↔ (i ∈ openersOf es) := by
              rw [openersOf_cons_opener d es hid]
              simp [List.mem_cons, hii]
            rw [hfr]
            cases s.argsView i with
            | some a0 => rfl
            | none => simp [hmem]
      · -- continuation delta: appended to the already-open request
        have hid2 : strTruthy d.id = false := by simpa using hid
        have hcc : (s.map.keys.contains d.index && contOpened s.map.keys es) = true := by
          simpa [contOpened, hid2] using hop
        have hmemk : d.index ∈ s.map.keys := by
          have := (Bool.and_eq_true _ _).mp hcc
          simpa using this.1
        have hop2 : contOpened s.map.keys es = true := ((Bool.and_eq_true _ _).mp hcc).2
        obtain ⟨tc, htc⟩ := TCMap.get_of_mem_keys s.map d.index hmemk
        have htcsh := TCMap.wellShaped_get s.map d.index tc hws htc
        obtain ⟨tf, a0, htf, ha0⟩ := entryWellShaped_elim tc htcsh
        have hshape2 : openersWellShaped es = true := by
          have := hshape
          simp only [openersWellShaped, List.all_cons, Bool.and_eq_true] at this
          exact this.2
        have hnd2 : (openersOf es).Nodup := by rwa [openersOf_cons_cont d es hid2] at hnd
        have hfresh2 : ∀ i ∈ openersOf es, i ∉ s.map.keys := by
          intro i hi
          exact hfresh i (by rwa [openersOf_cons_cont d es hid2])
        cases hdf : d.function with
        | none =>
          set s1 : RecState := ⟨s.content, s.map⟩ with hs1
          obtain ⟨s2, hrun, hws2, hcont, hargs⟩ := ih s1 hws hop2 hshape2 hnd2 hfresh2
          refine ⟨s2, ?_, hws2, ?_, ?_⟩
          · simpa [processEvents, processEvent, processToolCallDelta, hid2, htc, hdf, hs1]
              using hrun
          · rw [hcont, contentConcat_cons_tc]
          · intro i
            rw [hargs i, openersOf_cons_cont d es hid2]
            by_cases hii : i = d.index
            · have hfr : fragsFor i (.toolCall d :: es) = "" ++ fragsFor i es := by
                rw [fragsFor_cons_tc_eq i d es hii.symm]
                simp [deltaFrag, hdf]
              rw [hfr, String.empty_append]
            · rw [fragsFor_cons_tc_ne i d es (fun hq => hii hq.symm)]
        | some cf =>
          set tc2 : ToolCallDelta :=
            { tc with function := some { tf with arguments := some (a0 ++ cf.arguments.getD "") } }
            with htc2
          set s1 : RecState := ⟨s.content, s.map.set d.index tc2⟩ with hs1
          have hkeys1 : s1.map.keys = s.map.keys :=
            TCMap.keys_set_of_mem s.map d.index tc2 hmemk
          have hws1 : s1.map.wellShaped = true := by
            refine TCMap.wellShaped_set _ _ _ hws ?_
            simp [entryWellShaped, htc2]
          have hop1 : contOpened s1.map.keys es = true := by rwa [hkeys1]
          have hfresh1 : ∀ i ∈ openersOf es, i ∉ s1.map.keys := by
            intro i hi; rw [hkeys1]; exact hfresh2 i hi
          obtain ⟨s2, hrun, hws2, hcont, hargs⟩ := ih s1 hws1 hop1 hshape2 hnd2 hfresh1
          refine ⟨s2, ?_, hws2, ?_, ?_⟩
          · simpa [processEvents, processEvent, processToolCallDelta, hid2, htc, hdf, htf, ha0,
              hs1, htc2] using hrun
          · rw [hcont, contentConcat_cons_tc]
          · intro i
            rw [hargs i, openersOf_cons_cont d es hid2]
            by_cases hii : i = d.index
            · have hv1 : s1.argsView i = some (a0 ++ cf.arguments.getD "") := by
                rw [hii]
                simp [RecState.argsView, hs1, TCMap.get_set_self, htc2]
              have hv0 : s.argsView i = some a0 := by
                rw [hii]
                simp [RecState.argsView, htc, htf, ha0]
              rw [hv1, hv0]
              have hfr : fragsFor i (.toolCall d :: es) =
                  cf.arguments.getD "" ++ fragsFor i es := by
                rw [fragsFor_cons_tc_eq i d es hii.symm]
                simp [deltaFrag, hdf]
              rw [hfr]
              simp [String.append_assoc]
            · have hv1 : s1.argsView i = s.argsView i := by
                simp [RecState.argsView, hs1, TCMap.get_set_ne s.map d.index i tc2 hii]
              rw [hv1, fragsFor_cons_tc_ne i d es (fun hq => hii hq.symm)]

/-! ### Failure on orphan continuations -/
/-- If the event list contains a continuation delta whose index was not
previously opened (relative to the already-open indices), and id-bearing
deltas are well-shaped, the loop fails with the `KeyError` raised at the
first such continuation (the spec's `MalformedStreamError`). -/
theorem processEvents_orphan (es : List StreamEvent) :
    ∀ s : RecState, s.map.wellShaped = true →
    openersWellShaped es = true →
    contOpened s.map.keys es = false →
    ∃ i, processEvents s es = .error (.malformedStream i) := by
  induction es with
  | nil =>
    intro s _ _ h
    simp [contOpened] at h
  | cons e es ih =>
    intro s hws hshape hop
    cases e with
    | contentFrag t =>
      have hshape2 : openersWellShaped es = true := by
        simpa [openersWellShaped] using hshape
      obtain ⟨i, hi⟩ := ih ⟨if t.isEmpty then s.content else s.content ++ t, s.map⟩
        hws hshape2 hop
      exact ⟨i, by simpa [processEvents, processEvent] using hi⟩
    | toolCall d =>
      have hshape2 : openersWellShaped es = true := by
        have := hshape
        simp only [openersWellShaped, List.all_cons, Bool.and_eq_true] at this
        exact this.2
      by_cases hid : strTruthy d.id = true
      · have hsh : entryWellShaped d = true := by
          have := (List.all_eq_true.mp hshape) (.toolCall d) (List.mem_cons_self _ _)
          simpa [hid] using this
        have hws1 : (s.map.set d.index d).wellShaped = true :=
          TCMap.wellShaped_set _ _ _ hws hsh
        have hop1 : contOpened (s.map.set d.index d).keys es = false := by
          have hstep : contOpened (d.index :: s.map.keys) es = false := by
            simpa [contOpened, hid] using hop
          by_cases hm : d.index ∈ s.map.keys
          · rw [TCMap.keys_set_of_mem s.map d.index d hm]
            rw [contOpened_congr es s.map.keys (d.index :: s.map.keys) ?_]
            · exact hstep
            · intro j
              simp only [List.mem_cons]
              constructor
              · intro hj; exact Or.inr hj
              · rintro (hj | hj)
                · exact hj ▸ hm
                · exact hj
          · rw [TCMap.keys_set_of_not_mem s.map d.index d hm]
            rw [contOpened_congr es (s.map.keys ++ [d.index]) (d.index :: s.map.keys) ?_]
            · exact hstep
            · intro j
              simp [List.mem_append, List.mem_cons, or_comm]
        obtain ⟨i, hi⟩ := ih ⟨s.content, s.map.set d.index d⟩ hws1 hshape2 hop1
        refine ⟨i, ?_⟩
        simpa [processEvents, processEvent, processToolCallDelta, hid] using hi
      · have hid2 : strTruthy d.id = false := by simpa using hid
        have hop2 : (s.map.keys.contains d.index && contOpened s.map.keys es) = false := by
          simpa [contOpened, hid2] using hop
        by_cases hm : d.index ∈ s.map.keys
        · have hcontains : s.map.keys.contains d.index = true := by simpa using hm
          have hrest : contOpened s.map.keys es = false := by
            rw [hcontains] at hop2
            simpa using hop2
          obtain ⟨tc, htc⟩ := TCMap.get_of_mem_keys s.map d.index hm
          obtain ⟨tf, a0, htf, ha0⟩ :=
            entryWellShaped_elim tc (TCMap.wellShaped_get s.map d.index tc hws htc)
          cases hdf : d.function with
          | none =>
            obtain ⟨i, hi⟩ := ih ⟨s.content, s.map⟩ hws hshape2 hrest
            refine ⟨i, ?_⟩
            simpa [processEvents, processEvent, processToolCallDelta, hid2, htc, hdf]
              using hi
          | some cf =>
            set tc2 : ToolCallDelta :=
              { tc with function := some { tf with arguments := some (a0 ++ cf.arguments.getD "") } }
              with htc2
            have hws1 : (s.map.set d.index tc2).wellShaped = true := by
              refine TCMap.wellShaped_set _ _ _ hws ?_
              simp [entryWellShaped, htc2]
            have hrest1 : contOpened (s.map.set d.index tc2).keys es = false := by
              rwa [TCMap.keys_set_of_mem s.map d.index tc2 hm]
            obtain ⟨i, hi⟩ := ih ⟨s.content, s.map.set d.index tc2⟩ hws1 hshape2 hrest1
            refine ⟨i, ?_⟩
            simpa [processEvents, processEvent, processToolCallDelta, hid2, htc, hdf, htf,
              ha0, htc2] using hi
        · have hget : s.map.get d.index = none := TCMap.get_eq_none_of_not_mem s.map d.index hm
          refine ⟨d.index, ?_⟩
          simp [processEvents, processEvent, processToolCallDelta, hid2, hget]

/-- Characterization of a successful tool-call-delta step: an id-bearing
delta overwrites at its index; anything else leaves the key order alone. -/
theorem processToolCallDelta_ok_cases (m : TCMap) (d : ToolCallDelta) (m2 : TCMap)
    (h : processToolCallDelta m d = .ok m2) :
    (strTruthy d.id = true ∧ m2 = m.set d.index d) ∨
    (strTruthy d.id = false ∧ m2.keys = m.keys) := by
  by_cases hid : strTruthy d.id = true
  · left
    refine ⟨hid, ?_⟩
    rw [processToolCallDelta, if_pos hid] at h
    exact (Except.ok.injEq _ _ ▸ h).symm
  · right
    have hid2 : strTruthy d.id = false := by simpa using hid
    refine ⟨hid2, ?_⟩
    cases hget : m.get d.index with
    | none => simp [processToolCallDelta, hid2, hget] at h
    | some tc =>
      have hm : d.index ∈ m.keys := TCMap.mem_keys_of_get m d.index tc hget
      cases hdf : d.function with
      | none =>
        simp only [processToolCallDelta, hid2, hget, hdf, Bool.false_eq_true, if_neg,
          not_false_eq_true, Except.ok.injEq] at h
        rw [← h]
      | some cf =>
        cases htf : tc.function with
        | none => simp [processToolCallDelta, hid2, hget, hdf, htf] at h
        | some tf =>
          cases ha0 : tf.arguments with
          | none => simp [processToolCallDelta, hid2, hget, hdf, htf, ha0] at h
          | some a0 =>
            simp only [processToolCallDelta, hid2, hget, hdf, htf, ha0, Bool.false_eq_true,
              if_neg, not_false_eq_true, Except.ok.injEq] at h
            rw [← h]
            exact TCMap.keys_set_of_mem m d.index _ hm

/-- Whenever the loop succeeds, the key order of the index map — and hence
the order of `tool_call_index_map.values()` — is the first-opening order of
the stream, not the ascending index order. -/
theorem processEvents_keys (es : List StreamEvent) :
    ∀ s s2 : RecState, processEvents s es = .ok s2 →
    s2.map.keys = firstOpenAux s.map.keys es := by
  induction es with
  | nil =>
    intro s s2 h
    simp only [processEvents, Except.ok.injEq] at h
    rw [← h]
    rfl
  | cons e es ih =>
    intro s s2 h
    simp only [processEvents] at h
    cases hstep : processEvent s e with
    | error err => rw [hstep] at h; exact absurd h (by simp)
    | ok s1 =>
      rw [hstep] at h
      cases e with
      | contentFrag t =>
        have hs1 : s1.map = s.map := by
          simp only [processEvent] at hstep
          cases hstep
          rfl
        rw [ih s1 s2 h, firstOpenAux, hs1]
      | toolCall d =>
        have hq : ∃ m2, processToolCallDelta s.map d = .ok m2 ∧ s1.map = m2 := by
          simp only [processEvent] at hstep
          cases hpd : processToolCallDelta s.map d with
          | error err => rw [hpd] at hstep; exact absurd hstep (by simp)
          | ok m2 =>
            rw [hpd] at hstep
            cases hstep
            exact ⟨m2, rfl, rfl⟩
        obtain ⟨m2, hpd, hm1⟩ := hq
        rcases processToolCallDelta_ok_cases s.map d m2 hpd with ⟨hid, hset⟩ | ⟨hid, hkeys⟩
        · by_cases hm : d.index ∈ s.map.keys
          · have hcontains : s.map.keys.contains d.index = true := by simpa using hm
            rw [ih s1 s2 h, firstOpenAux]
            simp only [hid, hcontains, Bool.not_true, Bool.and_false]
            rw [if_neg (by simp)]
            rw [hm1, hset, TCMap.keys_set_of_mem s.map d.index d hm]
          · have hcontains : s.map.keys.contains d.index = false := by simpa using hm
            rw [ih s1 s2 h, firstOpenAux]
            simp only [hid, hcontains, Bool.not_false, Bool.and_true]
            rw [if_pos trivial]
            rw [hm1, hset, TCMap.keys_set_of_not_mem s.map d.index d hm]
        · rw [ih s1 s2 h, firstOpenAux]
          simp only [hid, Bool.false_and]
          rw [if_neg (by simp)]
          rw [hm1, hkeys]

theorem contFragsAt_cons_content (i : Nat) (t : String) (es : List StreamEvent) :
    contFragsAt i (.contentFrag t :: es) = contFragsAt i es := by
  simp [contFragsAt, List.filterMap_cons]

theorem contFragsAt_cons_opener (i : Nat) (d : ToolCallDelta) (es : List StreamEvent)
    (h : strTruthy d.id = true) :
    contFragsAt i (.toolCall d :: es) = contFragsAt i es := by
  simp [contFragsAt, List.filterMap_cons, h]

theorem contFragsAt_cons_cont_eq (i : Nat) (d : ToolCallDelta) (es : List StreamEvent)
    (hid : strTruthy d.id = false) (hidx : d.index = i) :
    contFragsAt i (.toolCall d :: es) = deltaFrag d ++ contFragsAt i es := by
  simp only [contFragsAt, List.filterMap_cons, hid, Bool.false_eq_true, if_neg,
    not_false_eq_true, if_pos hidx]
  exact strJoin_cons _ _

theorem contFragsAt_cons_cont_ne (i : Nat) (d : ToolCallDelta) (es : List StreamEvent)
    (hid : strTruthy d.id = false) (hidx : ¬(d.index = i)) :
    contFragsAt i (.toolCall d :: es) = contFragsAt i es := by
  simp [contFragsAt, List.filterMap_cons, hid, hidx]

/-- Rebuilding a stored delta from its own pieces is the identity. -/
theorem toolCallDelta_rebuild (d : ToolCallDelta) (tf : FuncDelta) (a : String)
    (hdf : d.function = some tf) (ha : tf.arguments = some a) :
    ({ d with function := some { tf with arguments := some a } } : ToolCallDelta) = d := by
  cases d with
  | mk idx id fn =>
    cases tf with
    | mk n args =>
      simp only at hdf ha ⊢
      rw [hdf, ha]

/-- A successful tool-call-delta step never touches entries at other
indices. -/
theorem processToolCallDelta_get_ne (m : TCMap) (d0 : ToolCallDelta) (m2 : TCMap) (i : Nat)
    (h : processToolCallDelta m d0 = .ok m2) (hne : ¬(d0.index = i)) :
    m2.get i = m.get i := by
  have hne2 : ¬(i = d0.index) := fun hq => hne hq.symm
  by_cases hid : strTruthy d0.id = true
  · rw [processToolCallDelta, if_pos hid] at h
    have : m.set d0.index d0 = m2 := Except.ok.injEq _ _ ▸ h
    rw [← this]
    exact TCMap.get_set_ne m d0.index i d0 hne2
  · have hid2 : strTruthy d0.id = false := by simpa using hid
    cases hget : m.get d0.index with
    | none => simp [processToolCallDelta, hid2, hget] at h
    | some tc =>
      cases hdf : d0.function with
      | none =>
        simp only [processToolCallDelta, hid2, hget, hdf, Bool.false_eq_true, if_neg,
          not_false_eq_true, Except.ok.injEq] at h
        rw [← h]
      | some cf =>
        cases htf : tc.function with
        | none => simp [processToolCallDelta, hid2, hget, hdf, htf] at h
        | some tf =>
          cases ha0 : tf.arguments with
          | none => simp [processToolCallDelta, hid2, hget, hdf, htf, ha0] at h
          | some a0 =>
            simp only [processToolCallDelta, hid2, hget, hdf, htf, ha0, Bool.false_eq_true,
              if_neg, not_false_eq_true, Except.ok.injEq] at h
            rw [← h]
            exact TCMap.get_set_ne m d0.index i _ hne2

/-- After the last opener stored a request at index `i`, every further
event only appends the continuation fragments for `i` to its accumulated
arguments: events at other indices never touch it, and there is no further
opener at `i` to reset it. -/
theorem processEvents_stable (i : Nat) (es : List StreamEvent) :
    ∀ (s s2 : RecState) (d : ToolCallDelta) (tf : FuncDelta) (a : String),
    processEvents s es = .ok s2 →
    noOpenerAt i es = true →
    s.map.get i = some d → d.function = some tf → tf.arguments = some a →
    s2.map.get i =
      some { d with function := some { tf with arguments := some (a ++ contFragsAt i es) } } := by
  induction es with
  | nil =>
    intro s s2 d tf a h _ hgd hdf ha
    simp only [processEvents, Except.ok.injEq] at h
    rw [← h, show contFragsAt i [] = "" from rfl, String.append_empty,
      toolCallDelta_rebuild d tf a hdf ha]
    exact hgd
  | cons e es ih =>
    intro s s2 d tf a h hno hgd hdf ha
    simp only [processEvents] at h
    cases hstep : processEvent s e with
    | error err => rw [hstep] at h; exact absurd h (by simp)
    | ok s1 =>
      rw [hstep] at h
      have hno2 : noOpenerAt i es = true := by
        have := hno
        simp only [noOpenerAt, List.all_cons, Bool.and_eq_true] at this
        exact this.2
      cases e with
      | contentFrag t =>
        have hs1 : s1.map = s.map := by
          simp only [processEvent] at hstep
          cases hstep
          rfl
        rw [contFragsAt_cons_content]
        exact ih s1 s2 d tf a h hno2 (hs1 ▸ hgd) hdf ha
      | toolCall d0 =>
        have hq : ∃ m2, processToolCallDelta s.map d0 = .ok m2 ∧ s1.map = m2 := by
          simp only [processEvent] at hstep
          cases hpd : processToolCallDelta s.map d0 with
          | error err => rw [hpd] at hstep; exact absurd hstep (by simp)
          | ok m2 =>
            rw [hpd] at hstep
            cases hstep
            exact ⟨m2, rfl, rfl⟩
        obtain ⟨m2, hpd, hm1⟩ := hq
        have hhead : (!(strTruthy d0.id && d0.index == i)) = true := by
          have := (List.all_eq_true.mp hno) (.toolCall d0) (List.mem_cons_self _ _)
          simpa using this
        by_cases hidx : d0.index = i
        · -- an event at our index: it cannot be an opener
          have hid2 : strTruthy d0.id = false := by
            cases hid : strTruthy d0.id with
            | false => rfl
            | true => rw [hid, hidx] at hhead; simp at hhead
          have hgd0 : s.map.get d0.index = some d := by rw [hidx]; exact hgd
          cases hdf0 : d0.function with
          | none =>
            have hm2 : m2 = s.map := by
              simp only [processToolCallDelta, hid2, hgd0, hdf0, Bool.false_eq_true, if_neg,
                not_false_eq_true, Except.ok.injEq] at hpd
              exact hpd.symm
            rw [contFragsAt_cons_cont_eq i d0 es hid2 hidx,
              show deltaFrag d0 = "" by simp [deltaFrag, hdf0], String.empty_append]
            refine ih s1 s2 d tf a h hno2 ?_ hdf ha
            rw [hm1, hm2]
            exact hgd
          | some cf =>
            have hm2 : m2 = s.map.set d0.index
                { d with function := some { tf with arguments := some (a ++ cf.arguments.getD "") } } := by
              simp only [processToolCallDelta, hid2, hgd0, hdf0, hdf, ha, Bool.false_eq_true,
                if_neg, not_false_eq_true, Except.ok.injEq] at hpd
              exact hpd.symm
            rw [contFragsAt_cons_cont_eq i d0 es hid2 hidx,
              show deltaFrag d0 = cf.arguments.getD "" by simp [deltaFrag, hdf0]]
            have hres := ih s1 s2
              ({ d with function := some { tf with arguments := some (a ++ cf.arguments.getD "") } })
              ({ tf with arguments := some (a ++ cf.arguments.getD "") })
              (a ++ cf.arguments.getD "") h hno2 ?_ rfl rfl
            · rw [hres]
              simp [String.append_assoc]
            · rw [hm1, hm2, hidx]
              exact TCMap.get_set_self _ i _
        · -- an event at a different index never touches our entry
          have hgp : m2.get i = s.map.get i :=
            processToolCallDelta_get_ne s.map d0 m2 i hpd hidx
          have hcf : contFragsAt i (.toolCall d0 :: es) = contFragsAt i es := by
            cases hid : strTruthy d0.id with
            | true => exact contFragsAt_cons_opener i d0 es hid
            | false => exact contFragsAt_cons_cont_ne i d0 es hid hidx
          rw [hcf]
          refine ih s1 s2 d tf a h hno2 ?_ hdf ha
          rw [hm1, hgp]
          exact hgd

/-! ## Claims about the Streaming Response Reconstructor -/
/-- C3: for every chunk stream containing a continuation delta (a tool-call
delta without an id) at an index with no prior id-bearing delta, the
reconstruction loop of `BaseAgent.handle_request` fails — with the
`KeyError` at the index map that realizes the spec's `MalformedStreamError`
— regardless of the state of other indices (id-bearing deltas are assumed
to carry an arguments string, the shape the model API produces; an
ill-shaped opener could otherwise surface an earlier, different error). -/
theorem c3_orphan_continuation_fails (cs : List StreamDelta)
    (hshape : openersWellShaped (streamEvents cs) = true)
    (horphan : contOpened [] (streamEvents cs) = false) :
    ∃ i, reconstructStream recInit cs = .error (.malformedStream i) := by
  rw [reconstructStream_eq_processEvents]
  exact processEvents_orphan (streamEvents cs) recInit rfl hshape horphan

/-- C3 witness: a stream whose only tool-call delta is a continuation at
the never-opened index 0 fails with `MalformedStreamError`. -/
theorem c3_witness :
    ∃ i, reconstructStream recInit
      [⟨some "hi", [⟨0, none, some ⟨none, some "abc"⟩⟩]⟩] =
      .error (.malformedStream i) :=
  c3_orphan_continuation_fails
    [⟨some "hi", [⟨0, none, some ⟨none, some "abc"⟩⟩]⟩] (by decide) (by decide)

/-- C2 counterexample: on `c2badStream` the claim's hypothesis holds, yet
the reconstructed request at index 0 accumulates `"y"` while the fragments
delivered for index 0 in stream order concatenate to `"xy"` — the second
id-bearing delta discarded the first fragment, so the claim as stated is
false. -/
theorem c2_counterexample :
    contOpened [] (streamEvents c2badStream) = true ∧
    reconstructStream recInit c2badStream =
      .ok ⟨"", [(0, ⟨0, some "b", some ⟨some "f", some "y"⟩⟩)]⟩ ∧
    fragsFor 0 (streamEvents c2badStream) = "xy" ∧
    ("y" : String) ≠ "xy" :=
  ⟨by decide, rfl, by decide, by decide⟩

/-- C2 (amended): for every event sequence in which each continuation
delta's index was previously opened by an id-bearing delta AND each index
is opened by at most one id-bearing delta (each carrying an arguments
string), reconstruction succeeds, every reconstructed request's accumulated
argument text equals the concatenation, in stream order, of the argument
fragments delivered for its index, and the accumulated content equals the
concatenation of all content fragments in stream order. -/
theorem c2_fragment_concatenation (cs : List StreamDelta)
    (hopen : contOpened [] (streamEvents cs) = true)
    (hnodup : (openersOf (streamEvents cs)).Nodup)
    (hshape : openersWellShaped (streamEvents cs) = true) :
    ∃ s2 : RecState, reconstructStream recInit cs = .ok s2 ∧
      s2.content = contentConcat (streamEvents cs) ∧
      ∀ i ∈ s2.map.keys, s2.argsView i = some (fragsFor i (streamEvents cs)) := by
  rw [reconstructStream_eq_processEvents]
  obtain ⟨s2, hok, hws, hcont, hargs⟩ :=
    processEvents_master (streamEvents cs) recInit rfl hopen hshape hnodup
      (by intro i _; simp [recInit, TCMap.keys])
  refine ⟨s2, hok, by simpa [recInit] using hcont, ?_⟩
  intro i hi
  obtain ⟨d, hd⟩ := TCMap.get_of_mem_keys s2.map i hi
  obtain ⟨f, a, hf, ha⟩ := entryWellShaped_elim d (TCMap.wellShaped_get _ _ _ hws hd)
  have hsome : s2.argsView i = some a := by simp [RecState.argsView, hd, hf, ha]
  have hv : s2.argsView i =
      if i ∈ openersOf (streamEvents cs) then some (fragsFor i (streamEvents cs))
      else none := by
    have := hargs i
    simpa [recInit, RecState.argsView, TCMap.get] using this
  by_cases hmem : i ∈ openersOf (streamEvents cs)
  · rw [hv, if_pos hmem]
  · rw [hsome] at hv
    rw [if_neg hmem] at hv
    exact absurd hv (by simp)

/-- C2 witness: a two-chunk stream — an opener for index 0 with fragment
`"ab"`, then content and a continuation with fragment `"cd"` — reconstructs
to content `"hi"` and arguments `"abcd"` at index 0. -/
theorem c2_witness :
    ∃ s2 : RecState, reconstructStream recInit
        [⟨some "h", [⟨0, some "a", some ⟨some "f", some "ab"⟩⟩]⟩,
         ⟨some "i", [⟨0, none, some ⟨none, some "cd"⟩⟩]⟩] = .ok s2 ∧
      s2.content = contentConcat (streamEvents
        [⟨some "h", [⟨0, some "a", some ⟨some "f", some "ab"⟩⟩]⟩,
         ⟨some "i", [⟨0, none, some ⟨none, some "cd"⟩⟩]⟩]) ∧
      ∀ i ∈ s2.map.keys, s2.argsView i = some (fragsFor i (streamEvents
        [⟨some "h", [⟨0, some "a", some ⟨some "f", some "ab"⟩⟩]⟩,
         ⟨some "i", [⟨0, none, some ⟨none, some "cd"⟩⟩]⟩])) :=
  c2_fragment_concatenation
    [⟨some "h", [⟨0, some "a", some ⟨some "f", some "ab"⟩⟩]⟩,
     ⟨some "i", [⟨0, none, some ⟨none, some "cd"⟩⟩]⟩]
    (by decide) (by decide) (by decide)

/-- C7 counterexample: when the opener for index 1 arrives before the one
for index 0, the reconstructed requests come out in insertion order
`[1, 0]` — `dict.values()` preserves insertion order — not ascending index
order `[0, 1]`, so the claim as stated is false. -/
theorem c7_counterexample :
    reconstructStream recInit c7stream =
      .ok ⟨"", [(1, ⟨1, some "b", some ⟨some "g", some ""⟩⟩),
                (0, ⟨0, some "a", some ⟨some "f", some ""⟩⟩)]⟩ ∧
    TCMap.keys [(1, ⟨1, some "b", some ⟨some "g", some ""⟩⟩),
                (0, ⟨0, some "a", some ⟨some "f", some ""⟩⟩)] = [1, 0] ∧
    ([1, 0] : List Nat) ≠ [0, 1] :=
  ⟨rfl, rfl, by decide⟩

/-- C7 (amended): whenever reconstruction completes, the requests attached
to the assistant Turn appear in first-opening order — the order in which
their indices were first opened by an id-bearing delta (Python dict
insertion order) — not in ascending index order. -/
theorem c7_first_open_order (cs : List StreamDelta) (s2 : RecState)
    (h : reconstructStream recInit cs = .ok s2) :
    s2.map.keys = firstOpenOrder (streamEvents cs) := by
  rw [reconstructStream_eq_processEvents] at h
  have hk := processEvents_keys (streamEvents cs) recInit s2 h
  simpa [firstOpenOrder, recInit, TCMap.keys] using hk

/-- C7 witness: on the out-of-order stream the final key order is the
first-opening order `[1, 0]`. -/
theorem c7_witness :
    (⟨"", [(1, ⟨1, some "b", some ⟨some "g", some ""⟩⟩),
           (0, ⟨0, some "a", some ⟨some "f", some ""⟩⟩)]⟩ : RecState).map.keys =
      firstOpenOrder (streamEvents c7stream) :=
  c7_first_open_order c7stream _ rfl

/-- C10: an id-bearing delta at an index that already holds an open request
silently replaces it in the index map, discarding all argument fragments
accumulated for that index so far: whatever happened before the last opener
at an index, the final request at that index is that opener with exactly
the continuation fragments delivered after it appended to its own argument
fragment. -/
theorem c10_reopen_replaces (cs : List StreamDelta) (s2 : RecState)
    (pre post : List StreamEvent) (o : ToolCallDelta) (f : FuncDelta) (a : String)
    (hsplit : streamEvents cs = pre ++ .toolCall o :: post)
    (hid : strTruthy o.id = true)
    (hf : o.function = some f) (ha : f.arguments = some a)
    (hno : noOpenerAt o.index post = true)
    (h : reconstructStream recInit cs = .ok s2) :
    s2.map.get o.index =
      some { o with
        function := some { f with arguments := some (a ++ contFragsAt o.index post) } } := by
  rw [reconstructStream_eq_processEvents, hsplit, processEvents_append] at h
  cases hpre : processEvents recInit pre with
  | error err => rw [hpre] at h; exact absurd h (by simp)
  | ok s1 =>
    rw [hpre] at h
    simp only [processEvents, processEvent, processToolCallDelta, hid, if_pos] at h
    exact processEvents_stable o.index post ⟨s1.content, s1.map.set o.index o⟩ s2 o f a h
      hno (TCMap.get_set_self s1.map o.index o) hf ha

/-- C10 witness: on `c10stream` the final request at index 0 is the second
opener with arguments `"zw"` — the `"x"`/`"y"` fragments accumulated before
the re-opening were discarded. -/
theorem c10_witness :
    (⟨"", [(0, ⟨0, some "b", some ⟨some "g", some "zw"⟩⟩)]⟩ : RecState).map.get 0 =
      some { (⟨0, some "b", some ⟨some "g", some "z"⟩⟩ : ToolCallDelta) with
        function := some { (⟨some "g", some "z"⟩ : FuncDelta) with
          arguments := some ("z" ++ contFragsAt 0 [.toolCall ⟨0, none, some ⟨none, some "w"⟩⟩]) } } :=
  c10_reopen_replaces c10stream _
    [.toolCall ⟨0, some "a", some ⟨some "f", some "x"⟩⟩,
     .toolCall ⟨0, none, some ⟨none, some "y"⟩⟩]
    [.toolCall ⟨0, none, some ⟨none, some "w"⟩⟩]
    ⟨0, some "b", some ⟨some "g", some "z"⟩⟩ ⟨some "g", some "z"⟩ "z"
    rfl (by decide) rfl rfl (by decide) rfl

theorem fanOutToolCalls_eq_map (toolsDict : List (String × Tool))
    (exec : ToolCall → Except PyError MsgDict) (toolCalls : List ToolCall) :
    fanOutToolCalls toolsDict exec toolCalls = toolCalls.map (fanOutSingle toolsDict exec) := by
  unfold fanOutToolCalls
  induction toolCalls with
  | nil => rfl
  | cons tc rest ih =>
    simp only [List.map_cons, List.zip_cons_cons]
    exact congrArg₂ List.cons rfl ih

/-- C4: for every round whose assistant Turn carries N tool-call requests,
whatever subset of the capability executions fails (the outcome oracle
`exec` ranges over all failure patterns), the fan-out produces exactly N
result Turns, aligned index-by-index with the requests in original request
order, each Turn being the call's own success result or the error Turn for
its own failure — no result dropped, and no call's outcome influencing a
sibling's slot. -/
theorem c4_fanout_order_and_isolation (toolsDict : List (String × Tool))
    (exec : ToolCall → Except PyError MsgDict) (toolCalls : List ToolCall) :
    (fanOutToolCalls toolsDict exec toolCalls).length = toolCalls.length ∧
    ∀ i : Nat, (fanOutToolCalls toolsDict exec toolCalls)[i]? =
      (toolCalls[i]?).map (fanOutSingle toolsDict exec) := by
  rw [fanOutToolCalls_eq_map]
  exact ⟨List.length_map _ _, fun i => List.getElem?_map _ _ _⟩

/-- C5 counterexample: `websearch` is not in the registry, yet the fan-out
does not abort the round — the `KeyError` raised by the registry lookup is
gathered like any tool failure and converted into a non-fatal tool-level
error Turn, and the round's result list still has one entry per request. -/
theorem c5_counterexample :
    alistGet c5registry "websearch" = none ∧
    fanOutToolCalls c5registry (fun _ => .ok c5okMsg) [c5call] =
      [errorToolMsg c5call (.keyError "websearch")] :=
  ⟨rfl, rfl⟩

/-- C5 (amended): a request whose `capability_name` is not in the registry
raises `KeyError` inside its own task; the fan-out converts it into a
non-fatal tool-level error Turn in that request's slot and the round
continues with one result Turn per request (the spec's fatal
`UnknownCapabilityError` does not exist in the code). -/
theorem c5_unknown_capability_nonfatal (toolsDict : List (String × Tool))
    (exec : ToolCall → Except PyError MsgDict) (toolCalls : List ToolCall)
    (i : Nat) (tc : ToolCall) (hi : toolCalls[i]? = some tc)
    (hunknown : alistGet toolsDict tc.function.name = none) :
    (fanOutToolCalls toolsDict exec toolCalls)[i]? =
      some (errorToolMsg tc (.keyError tc.function.name)) ∧
    (fanOutToolCalls toolsDict exec toolCalls).length = toolCalls.length := by
  rw [fanOutToolCalls_eq_map]
  constructor
  · rw [List.getElem?_map, hi]
    simp [fanOutSingle, processToolCall, hunknown]
  · exact List.length_map _ _

/-- C5 witness: the amended claim at the concrete counterexample data. -/
theorem c5_witness :
    (fanOutToolCalls c5registry (fun _ => .ok c5okMsg) [c5call])[0]? =
      some (errorToolMsg c5call (.keyError c5call.function.name)) ∧
    (fanOutToolCalls c5registry (fun _ => .ok c5okMsg) [c5call]).length = [c5call].length :=
  c5_unknown_capability_nonfatal c5registry (fun _ => .ok c5okMsg) [c5call] 0 c5call
    rfl rfl

/-- C9 counterexample: constructing an agent with an empty capability set
succeeds — `__init__` performs no registry validation, so construction does
not fail with any configuration error. -/
theorem c9_counterexample :
    baseAgentInit "endpoint" "prompt" [] =
      .ok ⟨"endpoint", "prompt", [], [], [(TOOL_CALL_HISTORY_KEY, SVal.hist [])]⟩ :=
  rfl

/-- C9 (amended): the empty or all-`None` capability set is rejected not at
construction but at request time: `handle_request` raises `ValueError`
before any round when the tool list is empty or filters to empty, so a
request that passes validation always runs with at least one non-`None`
tool. (A `None` entry incidentally breaks construction with
`AttributeError` while building `_tools_dict`.) -/
theorem c9_validation_at_request_time (a : Agent)
    (h : handleRequestValidate a = .ok ()) : validTools a.tools ≠ [] := by
  intro hempty
  unfold handleRequestValidate at h
  by_cases h1 : a.tools.isEmpty
  · rw [if_pos h1] at h
    exact absurd h (by simp)
  · rw [if_neg h1] at h
    rw [if_pos (by simp [hempty])] at h
    exact absurd h (by simp)

/-- C9 witness: the amended claim at a concrete validated agent. -/
theorem c9_witness : validTools c9agent.tools ≠ [] :=
  c9_validation_at_request_time c9agent rfl

/-- C6: the first gather for a capability creates the namespaced entry as a
dict `{tool_call_history: h}`; the second gather for the same capability
finds that truthy dict and calls `.extend` on it — a dict has no `extend`,
so instead of merging the histories the call raises `AttributeError`. -/
theorem c6_repeat_merge_raises :
    gatherToolHistoryToState [(TOOL_CALL_HISTORY_KEY, SVal.hist [])] "agent_b" c6toolMsg =
      .ok c6state1 ∧
    gatherToolHistoryToState c6state1 "agent_b" c6toolMsg =
      .error (.attributeError "dict object has no attribute extend") :=
  ⟨rfl, rfl⟩

/-- C8: the mirrored stage is opened exactly once (`openCount = 1`) and
force-closed at stream end (`closed = true`), but when the source content
grows from `"ab"` to `"abc"` the code appends the whole new snapshot —
the guard only checks that the snapshot differs from the mirrored content —
so the mirrored content becomes `"ababc"` instead of the diffed `"abc"` the
spec describes. -/
theorem c8_full_snapshot_reappended :
    mirrorStages c8chunks =
      [(0, { name := some "s", content := "ababc", attachments := []
           , openCount := 1, closed := true })] ∧
    ("ababc" : String) ≠ "abc" :=
  ⟨rfl, by decide⟩

/-! ## Claims about the sub-agent history reconstruction (C1) -/
theorem alistGet_nil {α : Type} (k : String) : alistGet ([] : List (String × α)) k = none :=
  rfl

/-- The collection loop emits the per-message blocks in order: for every
position, the output splits around that message's block (computed against
the correct previous message). -/
theorem prepareHistory_extract (agentName : String) :
    ∀ (msgs : List Msg) (prev : Option Msg) (i : Nat) (hi : i < msgs.length),
    ∃ pre post, prepareHistory agentName prev msgs =
      pre ++ prepareBlock agentName (if i = 0 then prev else msgs[i-1]?)
        (msgs.get ⟨i, hi⟩) ++ post := by
  intro msgs
  induction msgs with
  | nil =>
    intro prev i hi
    simp at hi
  | cons m rest ih =>
    intro prev i hi
    cases i with
    | zero =>
      refine ⟨[], prepareHistory agentName (some m) rest, ?_⟩
      simp [prepareHistory]
    | succ j =>
      have hj : j < rest.length := by simpa using hi
      obtain ⟨pre, post, hdecomp⟩ := ih (some m) j hj
      refine ⟨prepareBlock agentName prev m ++ pre, post, ?_⟩
      have hprev : (if j + 1 = 0 then prev else (m :: rest)[j + 1 - 1]?) =
          (if j = 0 then some m else rest[j-1]?) := by
        cases j with
        | zero => simp
        | succ k => simp
      have hget : (m :: rest).get ⟨j + 1, hi⟩ = rest.get ⟨j, hj⟩ := rfl
      rw [hget, hprev]
      simp only [prepareHistory, hdecomp, List.append_assoc]

/-- C1 (amended): for a delegating call with `propagate_history` true, each
assistant Turn of the outer history whose state holds a dict sub-state for
this capability with a tool-call history entry, and which is preceded by a
user Turn, contributes a contiguous block to the outbound list — the
preceding user Turn with attachments reduced to url/type/title (url falling
back to the reference url), then the tool-role Turns of the nested history
each reduced to role/content/tool_call_id (assistant entries of the nested
history are omitted and the tool name is dropped, so the replay is reduced,
not verbatim), then the assistant Turn with its state replaced by only the
namespaced sub-state — and the whole list ends with the new prompt as a
fresh user Turn. -/
theorem c1_history_block_structure (agentName prompt : String) (messages : List Msg)
    (i : Nat) (hi : i < messages.length) (m : Msg)
    (hm : messages.get ⟨i, hi⟩ = m)
    (hrole : m.role = Role.assistant)
    (cc : CustomContent) (hcc : m.customContent = some cc)
    (entries : List (String × SVal)) (hst : cc.state = some (SVal.sub entries))
    (sub : List (String × SVal)) (hsub : alistGet entries agentName = some (SVal.sub sub))
    (tch : SVal) (htch : alistGet sub TOOL_CALL_HISTORY_KEY = some tch)
    (hpos : 1 ≤ i) (u : Msg) (hu : messages[i-1]? = some u)
    (hurole : u.role = Role.user) :
    ∃ pre post, prepareMessages agentName prompt true messages =
      pre ++ [userMsgDict u] ++ toolReplays tch ++
      [assistantMsgDict m cc (SVal.sub sub)] ++ post ++
      [finalUserMsgDict prompt messages] := by
  obtain ⟨pre, post, hdecomp⟩ := prepareHistory_extract agentName messages none i hi
  have hi0 : ¬(i = 0) := by omega
  rw [if_neg hi0, hu, hm] at hdecomp
  have htruthy : (SVal.sub entries).truthy = true := by
    cases entries with
    | nil => rw [alistGet_nil] at hsub; exact absurd hsub (by simp)
    | cons p r => simp [SVal.truthy]
  have hblock : prepareBlock agentName (some u) m =
      [userMsgDict u] ++ toolReplays tch ++ [assistantMsgDict m cc (SVal.sub sub)] := by
    simp [prepareBlock, hrole, hcc, hst, htruthy, hsub, htch, hurole]
  rw [hblock] at hdecomp
  refine ⟨pre, post, ?_⟩
  unfold prepareMessages
  rw [if_pos rfl, hdecomp]
  simp [List.append_assoc]

/-- C1 counterexample: the nested history Turn carries `name = "calc"`, but
the reconstructed list replays it reduced to role/content/tool_call_id —
its slot holds `toolReplayDict c1histMsg`, whose `name` is dropped — and no
element of the reconstructed list carries a `name` at all, so the verbatim
serialization of the nested Turn (with its `name`) appears nowhere: the
claim's "replayed verbatim" is false. -/
theorem c1_counterexample :
    (hmsgToDict c1histMsg).name = some "calc" ∧
    (prepareMessages "agent_b" "next" true c1msgs)[1]? = some (toolReplayDict c1histMsg) ∧
    (toolReplayDict c1histMsg).name = none ∧
    (prepareMessages "agent_b" "next" true c1msgs).all (fun d => d.name == none) = true :=
  ⟨rfl, rfl, rfl, rfl⟩

/-- C1 witness: the amended block structure at the concrete two-message
history. -/
theorem c1_witness :
    ∃ pre post, prepareMessages "agent_b" "next" true c1msgs =
      pre ++ [userMsgDict c1userMsg] ++ toolReplays (SVal.hist [HVal.msg c1histMsg]) ++
      [assistantMsgDict c1assistantMsg c1cc (SVal.sub c1sub)] ++ post ++
      [finalUserMsgDict "next" c1msgs] :=
  c1_history_block_structure "agent_b" "next" c1msgs 1 (by decide) c1assistantMsg rfl rfl
    c1cc rfl [("agent_b", SVal.sub c1sub)] rfl c1sub rfl
    (SVal.hist [HVal.msg c1histMsg]) rfl (by decide) c1userMsg rfl rfl

end Mesh
